import Mathlib

/-!
Shallow embedding of the mcscale serial-scale-to-PLC bridge.

Sources embedded here:
- `src/utility/bitconvert.py` (`split_32bit_to_16bit`)
- `src/process/serial.py` (`process_weight_data`, `reset_plc_if_timeout`)
- `src/connect/connect.py` (`ping_host`, `check_connection`)
- `src/utility/initialset.py` (`parse_serial_ports_config`,
  `monitor_serial_ports`, `worker`)

Python ints are modelled as `Int`, Python floats as correctly rounded
binary64 values carried as exact rationals, raised exceptions as
`Except`/`Option` results, and the PLC connection object as read-response
functions plus a trace of the writes performed.
-/

set_option maxRecDepth 16000

namespace MCScale

/-! ## `src/utility/bitconvert.py`: `split_32bit_to_16bit` -/

/-- `split_32bit_to_16bit(value)` from `src/utility/bitconvert.py` lines
31-47: raises `ValueError` (modelled as `Except.error`) when the value is
negative or above `0xFFFFFFFF`, otherwise returns
`[value & 0xFFFF, (value >> 16) & 0xFFFF]`. -/
def split_32bit_to_16bit (value : ℤ) : Except String (List ℤ) :=
  if value < 0 ∨ 0xFFFFFFFF < value then
    .error "Value out of range for 32-bit conversion"
  else
    .ok [((value.toNat &&& 0xFFFF : ℕ) : ℤ), ((value.toNat >>> 16 &&& 0xFFFF : ℕ) : ℤ)]

theorem and_mask16 (n : ℕ) : n &&& 0xFFFF = n % 65536 := by
  have h : (0xFFFF : ℕ) = 2 ^ 16 - 1 := by norm_num
  have := Nat.and_pow_two_sub_one_eq_mod n 16
  rw [h]
  simpa using this

theorem shift16 (n : ℕ) : n >>> 16 = n / 65536 := by
  rw [Nat.shiftRight_eq_div_pow]

theorem split_ok_eq (v : ℤ) (h0 : 0 ≤ v) (h1 : v ≤ 0xFFFFFFFF) :
    split_32bit_to_16bit v = .ok [v % 65536, v / 65536 % 65536] := by
  unfold split_32bit_to_16bit
  rw [if_neg (by push_neg; exact ⟨h0, h1⟩)]
  rw [and_mask16, shift16, and_mask16]
  have hv : ((v.toNat : ℤ)) = v := Int.toNat_of_nonneg h0
  have e1 : ((v.toNat % 65536 : ℕ) : ℤ) = v % 65536 := by
    push_cast
    omega
  have e2 : ((v.toNat / 65536 % 65536 : ℕ) : ℤ) = v / 65536 % 65536 := by
    push_cast
    omega
  rw [e1, e2]

/-! ## Python binary64 floats, modelled as exact rationals

`float(s)` on a decimal literal and float multiplication are both
correctly rounded to the nearest IEEE-754 binary64 value, ties to even.
A binary64 value is carried as the exact rational it denotes.  The model
covers the normal range (magnitudes in `[2^-1022, 2^1024)` and zero),
which contains every value these claims touch. -/

/-- Fuel-driven floor of `log2` on naturals: `lg2F f n = ⌊log2 n⌋` for
`1 ≤ n < 2^f`. -/
def lg2F : ℕ → ℕ → ℕ
  | 0, _ => 0
  | f + 1, n => if n ≤ 1 then 0 else lg2F f (n / 2) + 1

/-- `⌊log2 (n/d)⌋` for fractions with `2^-1400 ≤ n/d < 2^1600`, `0 < d`. -/
def floorLog2ND (n d : ℕ) : ℤ :=
  (lg2F 3000 (n * 2 ^ 1400 / d) : ℤ) - 1400

/-- Round the fraction `n/d` (with `0 < d`) to the nearest natural,
ties to even. -/
def rheND (n d : ℕ) : ℕ :=
  let q := n / d
  let r := n % d
  if 2 * r < d then q else if d < 2 * r then q + 1 else if 2 ∣ q then q else q + 1

/-- A nonnegative binary64 value, carried exactly as `m · 2^exp`. -/
structure F64 where
  m : ℕ
  exp : ℤ
  deriving DecidableEq

/-- The exact rational a binary64 value denotes. -/
def F64.val (x : F64) : ℚ :=
  if 0 ≤ x.exp then (x.m * 2 ^ x.exp.toNat : ℕ) else (x.m : ℚ) / (2 ^ (-x.exp).toNat : ℕ)

/-- Nearest binary64 value (round to nearest, ties to even) of the
fraction `n/d`, `0 < d`, for results in the normal range or zero: with
`2^e ≤ n/d < 2^(e+1)` the mantissa is `n/d · 2^(52-e)` rounded half to
even.  This is the value IEEE-754 arithmetic produces for every operation
this model uses (decimal-literal conversion and multiplication). -/
def rnd64ND (n d : ℕ) : F64 :=
  let e := floorLog2ND n d
  let m :=
    if 0 ≤ 52 - e then rheND (n * 2 ^ (52 - e).toNat) d
    else rheND n (d * 2 ^ (e - 52).toNat)
  ⟨m, e - 52⟩

/-- Binary64 multiplication by a nonnegative Python int (the int converts
exactly, the exact product is rounded to the nearest binary64). -/
def f64MulNat (x : F64) (k : ℕ) : F64 :=
  if 0 ≤ x.exp then rnd64ND (x.m * k * 2 ^ x.exp.toNat) 1
  else rnd64ND (x.m * k) (2 ^ (-x.exp).toNat)

/-- Python `int()` of a nonnegative binary64 value: truncation. -/
def f64Trunc (x : F64) : ℕ :=
  if 0 ≤ x.exp then x.m * 2 ^ x.exp.toNat else x.m / 2 ^ (-x.exp).toNat

/-! ## The weight-frame parser of `process_weight_data`
(`src/process/serial.py` lines 170-180)

A message is stripped, matched against `^ST,\+(\d+\.\d+)\s+g$`, the
digit group parsed with `float()` and scaled by
`int(weight_value * 100)` (truncation toward zero). -/

/-- Python `str.strip` / regex `\s` whitespace (ASCII range, which is all
that an `ascii`-decoded buffer can contain). -/
def pyIsSpace (c : Char) : Bool :=
  c = ' ' ∨ c = '\t' ∨ c = '\n' ∨ c = '\x0d' ∨ c = '\x0b' ∨ c = '\x0c'

/-- Regex `\d` on ASCII input. -/
def pyIsDigit (c : Char) : Bool := '0' ≤ c ∧ c ≤ '9'

/-- Leading-whitespace removal (Python `str.lstrip()`). -/
def stripL (l : List Char) : List Char := l.dropWhile pyIsSpace

/-- Trailing-whitespace removal (Python `str.rstrip()`). -/
def stripR (l : List Char) : List Char := (l.reverse.dropWhile pyIsSpace).reverse

/-- Python `str.strip()` on ASCII input. -/
def pyStrip (s : String) : String :=
  ⟨stripR (stripL s.toList)⟩

/-- Value of a decimal digit list (most significant first). -/
def natOfDigits (ds : List Char) : ℕ :=
  ds.foldl (fun a c => 10 * a + (c.toNat - '0'.toNat)) 0

/-- Exact rational value of the decimal literal `d1.d2`. -/
def decVal (d1 d2 : List Char) : ℚ :=
  (natOfDigits d1 : ℚ) + (natOfDigits d2 : ℚ) / 10 ^ d2.length

/-- `float("d1.d2")`: CPython converts a decimal literal to the nearest
binary64 value; the literal `d1.d2` is the fraction
`natOfDigits (d1 ++ d2) / 10^|d2|`. -/
def pyFloat (d1 d2 : List Char) : F64 :=
  rnd64ND (natOfDigits (d1 ++ d2)) (10 ^ d2.length)

/-- `int(float("d1.d2") * 100)` (`src/process/serial.py` lines 179-180):
the decimal is rounded to binary64, the product with `100` is again
rounded to binary64, and `int` truncates toward zero. -/
def pyScale (d1 d2 : List Char) : ℤ :=
  (f64Trunc (f64MulNat (pyFloat d1 d2) 100) : ℤ)

/-- Matcher for `^ST,\+(\d+\.\d+)\s+g$` (`src/process/serial.py` line 174):
the char classes of the pattern are pairwise disjoint, so the greedy match
is the unique decomposition returned here.  Yields the two digit groups. -/
def matchWeight (cs : List Char) : Option (List Char × List Char) :=
  match cs with
  | 'S' :: 'T' :: ',' :: '+' :: rest =>
    let d1 := rest.takeWhile pyIsDigit
    match rest.dropWhile pyIsDigit with
    | '.' :: r2 =>
      let d2 := r2.takeWhile pyIsDigit
      let r3 := r2.dropWhile pyIsDigit
      let ws := r3.takeWhile pyIsSpace
      if d1 = [] ∨ d2 = [] ∨ ws = [] then none
      else
        match r3.dropWhile pyIsSpace with
        | ['g'] => some (d1, d2)
        | _ => none
    | _ => none
  | _ => none

/-- `src/process/serial.py` lines 170-180: strip the message, reject an
empty line, match the weight regex, and convert the captured group to the
scaled integer.  `none` models `return False` before any state change. -/
def parseWeight (message : String) : Option ℤ :=
  let cleaned := pyStrip message
  if cleaned = "" then none
  else
    match matchWeight cleaned.toList with
    | none => none
    | some (d1, d2) => some (pyScale d1 d2)

/-! ## `process_weight_data` (`src/process/serial.py` lines 166-236)

The `pymc3e` connection object is modelled by its observable behaviour in
one call: the word/bit read-backs are response functions indexed by the
attempt number (`batchread_wordunits`/`batchread_bitunits` with
`readsize=1` return a list of register values, arbitrary at each
attempt), and every write performed is recorded in a trace.  A raised
`MCProtocolError`-free run is assumed for writes inside
`process_weight_data` (the function catches only `ValueError`);
`time.time()` is the parameter `now`, `time.sleep` is uninterpreted. -/

/-- Per-port mutable state dictionary (`state["last_weight"]`,
`state["last_update_time"]`); the byte buffer is handled by the caller
`smode_process_serial_data` and is not needed here. -/
structure PortState where
  last_weight : ℤ
  last_update_time : ℚ
  deriving DecidableEq

/-- One PLC write performed through the connection object. -/
inductive PlcOp
  | writeWords (headdevice : String) (values : List ℤ)
  | writeBits (headdevice : String) (values : List ℤ)
  deriving DecidableEq

/-- Outcome of the word-write retry loop. -/
inductive WordOutcome
  | ok
  | exhausted
  | valueError
  deriving DecidableEq

/-- Read-back comparison of the retry loops
(`if read_back and int(read_back[0]) == target_value`): a response list
passes when it is nonempty (truthy) and its first element equals the
target. -/
def firstEq (l : List ℤ) (t : ℤ) : Bool :=
  match l with
  | x :: _ => x = t
  | [] => false

/-- Word-write retry loop (`src/process/serial.py` lines 196-212):
`for attempt in range(max_retries)`, each attempt recomputes
`split_32bit_to_16bit(target_value)` (whose `ValueError` escapes to the
enclosing `except`), writes the two words, reads back one word
(`readsize=1`) and succeeds when the list is nonempty and its first
element equals the full `target_value`.  Falling out of the loop is the
`for`-`else` `return False`. -/
def wordAttempts (headdevice : String) (target : ℤ) (wordRead : ℕ → List ℤ) :
    ℕ → ℕ → WordOutcome × List PlcOp
  | _, 0 => (.exhausted, [])
  | i, fuel + 1 =>
    match split_32bit_to_16bit target with
    | .error _ => (.valueError, [])
    | .ok converted =>
      let op := PlcOp.writeWords headdevice converted
      if firstEq (wordRead i) target then (.ok, [op])
      else
        let rest := wordAttempts headdevice target wordRead (i + 1) fuel
        (rest.1, op :: rest.2)

/-- Bit-activation retry loop (`src/process/serial.py` lines 215-226):
writes `[1]` to the bit unit, reads back one bit and succeeds when the
list is nonempty and its first element equals `1`. -/
def bitAttempts (bitunit : String) (bitRead : ℕ → List ℤ) :
    ℕ → ℕ → Bool × List PlcOp
  | _, 0 => (false, [])
  | i, fuel + 1 =>
    let op := PlcOp.writeBits bitunit [1]
    if firstEq (bitRead i) 1 then (true, [op])
    else
      let rest := bitAttempts bitunit bitRead (i + 1) fuel
      (rest.1, op :: rest.2)

/-- `process_weight_data(message, state, ser, pymc3e, headdevice, bitunit,
logger, max_retries=3)` (`src/process/serial.py` lines 166-236).  Returns
the Python return value, the state after the call and the trace of PLC
writes.  Steps: strip/match/scale (`parseWeight`); drop values below
`100`; update `last_update_time` on every valid reading; debounce
(`last_weight != 0 and target <= last_weight`); word-write retry loop,
whose `ValueError` (out-of-32-bit-range value) is caught by the enclosing
`except ValueError: return False`; bit-activation retry loop; only after
both confirm, `state["last_weight"] = target_value` and `return True`. -/
def process_weight_data (message : String) (state : PortState)
    (headdevice bitunit : String) (now : ℚ)
    (wordRead bitRead : ℕ → List ℤ) (max_retries : ℕ := 3) :
    Bool × PortState × List PlcOp :=
  match parseWeight message with
  | none => (false, state, [])
  | some target =>
    if target < 100 then (false, state, [])
    else
      let state1 : PortState := { state with last_update_time := now }
      if state.last_weight ≠ 0 ∧ target ≤ state.last_weight then (false, state1, [])
      else
        match wordAttempts headdevice target wordRead 0 max_retries with
        | (.valueError, tr) => (false, state1, tr)
        | (.exhausted, tr) => (false, state1, tr)
        | (.ok, tr) =>
          match bitAttempts bitunit bitRead 0 max_retries with
          | (false, tr2) => (false, state1, tr ++ tr2)
          | (true, tr2) =>
            (true, { state1 with last_weight := target }, tr ++ tr2)

/-- Whether a trace contains a word write (a forward of a weight value to
the PLC head device). -/
def containsWordWrite (tr : List PlcOp) : Bool :=
  tr.any fun op => match op with
    | .writeWords _ _ => true
    | .writeBits _ _ => false

/-! ## `reset_plc_if_timeout` (`src/process/serial.py` lines 239-259) -/

/-- `reset_plc_if_timeout(state, pymc3e, headdevice, bitunit, logger,
stop_event, data_in_progress)`.  The two reset writes may raise
`MCProtocolError`; `wordOk`/`bitOk` say whether each write returns
normally.  Result: state after the call, the stop flag
(`stop_event.set()` fires only in the `except` branch), and the write
trace.  `state["last_update_time"]` is truthy iff nonzero; the timeout is
15 seconds. -/
def reset_plc_if_timeout (state : PortState) (headdevice bitunit : String)
    (now : ℚ) (data_in_progress : Bool) (wordOk bitOk : Bool) (stop : Bool) :
    PortState × Bool × List PlcOp :=
  if ¬data_in_progress ∧ state.last_update_time ≠ 0 ∧
      15 ≤ now - state.last_update_time then
    let opW := PlcOp.writeWords headdevice [0, 0]
    if ¬wordOk then (state, true, [opW])
    else
      let opB := PlcOp.writeBits bitunit [0]
      if ¬bitOk then (state, true, [opW, opB])
      else ({ state with last_update_time := 0, last_weight := 0 }, stop, [opW, opB])
  else (state, stop, [])

/-! ## `src/connect/connect.py`: `ping_host` and `check_connection` -/

/-- Outcome of one `subprocess.run` ping attempt: the process completed
with a return code, the `timeout` expired (`subprocess.TimeoutExpired`),
or some other exception was raised. -/
inductive PingOutcome
  | completed (returncode : ℤ)
  | timedOut
  | raised
  deriving DecidableEq

/-- Attempt loop of `ping_host` (`src/connect/connect.py` lines 31-56):
`for attempt in range(1, max_attempts + 1)`, returning `True` as soon as
one run completes with return code `0`; every other outcome (nonzero
code, timeout, any exception) is logged and the loop continues.  After
the loop, `return False`. -/
def pingAttempts (outcomes : ℕ → PingOutcome) : ℕ → ℕ → Bool
  | _, 0 => false
  | attempt, fuel + 1 =>
    match outcomes attempt with
    | .completed rc =>
      if rc = 0 then true else pingAttempts outcomes (attempt + 1) fuel
    | .timedOut => pingAttempts outcomes (attempt + 1) fuel
    | .raised => pingAttempts outcomes (attempt + 1) fuel

/-- `ping_host(host, logger, timeout_sec=5, max_attempts=3)`
(`src/connect/connect.py` lines 27-56).  All exceptions of an attempt are
caught inside the loop, so the function always returns a bool and never
raises. -/
def ping_host (outcomes : ℕ → PingOutcome) (max_attempts : ℕ := 3) : Bool :=
  pingAttempts outcomes 1 max_attempts

/-- `check_connection(pymc3e, plc_ip, plc_port, logger, retry_attempts=8,
retry_delay=5)` (`src/connect/connect.py` lines 59-91).  The `try` body
is `if ping_host(...): return True` else log and `return False`. The
`except (ValueError, socket.error)` handler holding the
reconnection-retry loop (lines 69-91) can only run if `ping_host` raises
one of those exceptions, and `ping_host` never raises (it catches
`subprocess.TimeoutExpired` and `Exception` around its only calls), so
the handler is unreachable and no reconnection is ever attempted.
Result: the returned bool and the number of reconnection attempts
performed. -/
def check_connection (outcomes : ℕ → PingOutcome) : Bool × ℕ :=
  if ping_host outcomes 3 then (true, 0) else (false, 0)

/-! ## `src/utility/initialset.py`: `parse_serial_ports_config` -/

/-- Python `str.lstrip("/")`. -/
def pyLstripSlash (s : String) : String :=
  ⟨s.toList.dropWhile fun c => c = '/'⟩

/-- `entry.strip().split(":", 1)` succeeding means the stripped entry
contains a colon; the split is at the first colon. -/
def breakAtColon : List Char → Option (List Char × List Char)
  | [] => none
  | c :: cs =>
    if c = ':' then some ([], cs)
    else
      match breakAtColon cs with
      | none => none
      | some (a, b) => some (c :: a, b)

/-- Python `str.split(sep)` for a single-character separator `sep`
(no maxsplit): every occurrence splits. -/
def splitOnChar (sep : Char) : List Char → List (List Char)
  | [] => [[]]
  | c :: cs =>
    let r := splitOnChar sep cs
    if c = sep then [] :: r
    else
      match r with
      | [] => [[c]]
      | a :: as => (c :: a) :: as

/-- Body of the `for entry in env_value.split(";")` loop of
`parse_serial_ports_config` (`src/utility/initialset.py` lines 13-23):
skip a whitespace-only entry; `port, devices = entry.strip().split(":", 1)`
and `headdevice, bitunit = devices.split(",")` raise `ValueError` (and
the entry is skipped) unless the shapes fit exactly; otherwise the entry
yields `mapping[port.strip()] = (headdevice.lstrip("/"), bitunit.strip())`. -/
def parseEntry (entry : String) : Option (String × String × String) :=
  let es := pyStrip entry
  if es = "" then none
  else
    match breakAtColon es.toList with
    | none => none
    | some (p, devices) =>
      match splitOnChar ',' devices with
      | [h, b] => some (pyStrip (String.mk p), pyLstripSlash (String.mk h), pyStrip (String.mk b))
      | _ => none

/-- Python dict assignment `mapping[k] = v` on an insertion-ordered
association list. -/
def dictInsert : List (String × String × String) → String × String × String →
    List (String × String × String)
  | [], e => [e]
  | (k1, v1) :: t, (k, v) =>
    if k1 = k then (k, v) :: t else (k1, v1) :: dictInsert t (k, v)

/-- Dict lookup. -/
def dictFind : List (String × String × String) → String → Option (String × String)
  | [], _ => none
  | (k1, v1) :: t, k => if k1 = k then some v1 else dictFind t k

/-- One iteration of the entry loop: a `ValueError` (modelled by
`parseEntry` returning `none`) leaves the mapping untouched. -/
def configStep (m : List (String × String × String)) (e : String) :
    List (String × String × String) :=
  match parseEntry e with
  | none => m
  | some kv => dictInsert m kv

/-- Fold of the entry loop over a list of entries. -/
def parseConfigList (entries : List String) : List (String × String × String) :=
  entries.foldl configStep []

/-- `parse_serial_ports_config(env_value)` (`src/utility/initialset.py`
lines 10-24): split the variable on `;` and run the entry loop. -/
def parse_serial_ports_config (env_value : String) : List (String × String × String) :=
  parseConfigList ((splitOnChar ';' env_value.toList).map String.mk)

/-! ## Producer/worker-pool interleaving
(`src/utility/initialset.py` lines 27-62, `src/process/serial.py`
lines 287-306)

One bound port, viewed through the counters that decide the at-most-one-
in-flight-task question.  `pending` models `ser.in_waiting` being
positive, `queued` the tasks for this port sitting in `data_queue`,
`inflight` the workers currently inside `smode_process_serial_data` for
this port. -/

/-- Abstract configuration of the monitor/queue/worker system for one
port. -/
structure PoolConf where
  pending : ℕ
  queued : ℕ
  inflight : ℕ
  deriving DecidableEq

/-- Interleaving steps.  `monitor_poll` is one pass of the loop of
`monitor_serial_ports` (`src/utility/initialset.py` lines 30-33): when
`ser.in_waiting > 0` it enqueues a task for the port, with no check of
whether a task for that port is already queued or being processed, and
without consuming the pending bytes.  `worker_dequeue` is
`data_queue.get` in `worker` (line 45) followed by entering
`smode_process_serial_data`.  `worker_read` is `ser.read(ser.in_waiting)`
(`src/process/serial.py` line 294), which consumes the pending bytes.
`worker_finish` is the worker completing the task.

Modelled from the spec: the number of workers able to dequeue
concurrently.  The worker-pool wiring that spawns the threads is not
under `src/`; spec section 4.5 fixes a pool of about 10 independent
workers all reading the one shared queue, so at least two `worker_dequeue`
steps can interleave. -/
inductive PoolStep : PoolConf → PoolConf → Prop
  | monitor_poll {c : PoolConf} : 0 < c.pending →
      PoolStep c ⟨c.pending, c.queued + 1, c.inflight⟩
  | worker_dequeue {c : PoolConf} : 0 < c.queued →
      PoolStep c ⟨c.pending, c.queued - 1, c.inflight + 1⟩
  | worker_read {c : PoolConf} : 0 < c.inflight →
      PoolStep c ⟨0, c.queued, c.inflight⟩
  | worker_finish {c : PoolConf} : 0 < c.inflight →
      PoolStep c ⟨c.pending, c.queued, c.inflight - 1⟩

/-- Reachability through the interleaving. -/
def PoolReach : PoolConf → PoolConf → Prop :=
  Relation.ReflTransGen PoolStep

theorem wordAttempts_of_error (hd : String) (t : ℤ) (wr : ℕ → List ℤ)
    (i fuel : ℕ) (e : String) (h : split_32bit_to_16bit t = .error e) :
    (wordAttempts hd t wr i fuel).2 = [] ∧ (wordAttempts hd t wr i fuel).1 ≠ .ok := by
  cases fuel with
  | zero => exact ⟨rfl, by simp [wordAttempts]⟩
  | succ f => simp [wordAttempts, h]

theorem wordAttempts_write (hd : String) (t : ℤ) (wr : ℕ → List ℤ)
    (i fuel : ℕ) (ws : List ℤ) (h : split_32bit_to_16bit t = .ok ws) (hf : 0 < fuel) :
    ∃ rest, (wordAttempts hd t wr i fuel).2 = PlcOp.writeWords hd ws :: rest := by
  cases fuel with
  | zero => omega
  | succ f =>
    simp only [wordAttempts, h]
    by_cases hx : firstEq (wr i) t = true
    · rw [if_pos hx]
      exact ⟨[], rfl⟩
    · rw [if_neg hx]
      exact ⟨_, rfl⟩

theorem wordAttempts_not_ok (hd : String) (t : ℤ) (wr : ℕ → List ℤ)
    (fuel : ℕ) : ∀ i, (∀ j, i ≤ j → j < i + fuel → firstEq (wr j) t = false) →
    (wordAttempts hd t wr i fuel).1 ≠ .ok := by
  induction fuel with
  | zero => intro i _; simp [wordAttempts]
  | succ f ih =>
    intro i hmiss
    have hnext : ∀ j, i + 1 ≤ j → j < i + 1 + f → firstEq (wr j) t = false := by
      intro j h1 h2
      exact hmiss j (by omega) (by omega)
    have hcur := hmiss i (le_refl i) (by omega)
    rcases hs : split_32bit_to_16bit t with e | ws
    · simp [wordAttempts, hs]
    · simp only [wordAttempts, hs]
      rw [if_neg (by rw [hcur]; simp)]
      simpa using ih (i + 1) hnext

theorem wordAttempts_first_hit (hd : String) (t : ℤ) (wr : ℕ → List ℤ)
    (i fuel : ℕ) (ws : List ℤ) (h : split_32bit_to_16bit t = .ok ws) (hf : 0 < fuel)
    (hhit : firstEq (wr i) t = true) :
    wordAttempts hd t wr i fuel = (.ok, [PlcOp.writeWords hd ws]) := by
  cases fuel with
  | zero => omega
  | succ f =>
    simp only [wordAttempts, h]
    rw [if_pos hhit]

theorem bitAttempts_no_word_write (bu : String) (br : ℕ → List ℤ)
    (fuel : ℕ) : ∀ i, containsWordWrite (bitAttempts bu br i fuel).2 = false := by
  induction fuel with
  | zero => intro i; simp [bitAttempts, containsWordWrite]
  | succ f ih =>
    intro i
    simp only [bitAttempts]
    by_cases hx : firstEq (br i) 1 = true
    · rw [if_pos hx]
      simp [containsWordWrite]
    · rw [if_neg hx]
      simpa [containsWordWrite] using ih (i + 1)

theorem bitAttempts_not_ok (bu : String) (br : ℕ → List ℤ)
    (fuel : ℕ) : ∀ i, (∀ j, i ≤ j → j < i + fuel → firstEq (br j) 1 = false) →
    (bitAttempts bu br i fuel).1 = false := by
  induction fuel with
  | zero => intro i _; rfl
  | succ f ih =>
    intro i hmiss
    have hnext : ∀ j, i + 1 ≤ j → j < i + 1 + f → firstEq (br j) 1 = false := by
      intro j h1 h2
      exact hmiss j (by omega) (by omega)
    have hcur := hmiss i (le_refl i) (by omega)
    simp only [bitAttempts]
    rw [if_neg (by rw [hcur]; simp)]
    simpa using ih (i + 1) hnext

theorem bitAttempts_first_hit (bu : String) (br : ℕ → List ℤ)
    (i fuel : ℕ) (hf : 0 < fuel) (hhit : firstEq (br i) 1 = true) :
    bitAttempts bu br i fuel = (true, [PlcOp.writeBits bu [1]]) := by
  cases fuel with
  | zero => omega
  | succ f =>
    simp only [bitAttempts]
    rw [if_pos hhit]

theorem containsWordWrite_append (a b : List PlcOp) :
    containsWordWrite (a ++ b) = (containsWordWrite a || containsWordWrite b) := by
  simp [containsWordWrite]

theorem split_err_of_gt (v : ℤ) (h : 0xFFFFFFFF < v) :
    split_32bit_to_16bit v = .error "Value out of range for 32-bit conversion" := by
  unfold split_32bit_to_16bit
  rw [if_pos (Or.inr h)]

/-! ## Theorems -/

/-- C7: for every integer `v` in `[0, 2^32-1]`,
`split_32bit_to_16bit v` returns `[v & 0xFFFF, (v >> 16) & 0xFFFF]`
(for nonnegative `v` the masks are `v % 2^16` and `v / 2^16 % 2^16`),
and recombining low word plus `2^16` times high word yields `v`. -/
theorem C7_split_roundtrip (v : ℤ) (h0 : 0 ≤ v) (h1 : v ≤ 0xFFFFFFFF) :
    split_32bit_to_16bit v = .ok [v % 2 ^ 16, v / 2 ^ 16 % 2 ^ 16] ∧
    v % 2 ^ 16 + 2 ^ 16 * (v / 2 ^ 16 % 2 ^ 16) = v := by
  constructor
  · simpa using split_ok_eq v h0 h1
  · omega

/-- C7 witness: instantiation at `v = 3000000930`
(`low = 24994`, `high = 45776`). -/
theorem C7_split_roundtrip_witness :
    split_32bit_to_16bit 3000000930 = .ok [24994, 45776] ∧
    (24994 : ℤ) + 2 ^ 16 * 45776 = 3000000930 := by
  have h := C7_split_roundtrip 3000000930 (by decide) (by decide)
  constructor
  · rw [h.1]
    simp only [Except.ok.injEq]
    decide
  · decide

/-- C9: `split_32bit_to_16bit v` raises `ValueError` exactly when `v < 0`
or `v > 0xFFFFFFFF`, and for every `v` in range it returns a list of
exactly two integers, each in `[0, 65535]`. -/
theorem C9_split_error_iff (v : ℤ) :
    ((∃ msg, split_32bit_to_16bit v = .error msg) ↔ v < 0 ∨ 0xFFFFFFFF < v) ∧
    (0 ≤ v → v ≤ 0xFFFFFFFF →
      ∃ a b, split_32bit_to_16bit v = .ok [a, b] ∧
        0 ≤ a ∧ a ≤ 65535 ∧ 0 ≤ b ∧ b ≤ 65535) := by
  constructor
  · constructor
    · rintro ⟨msg, hmsg⟩
      by_contra hc
      push_neg at hc
      rw [split_ok_eq v hc.1 hc.2] at hmsg
      exact Except.noConfusion hmsg
    · intro h
      refine ⟨"Value out of range for 32-bit conversion", ?_⟩
      unfold split_32bit_to_16bit
      rw [if_pos h]
  · intro h0 h1
    refine ⟨v % 65536, v / 65536 % 65536, ?_, ?_, ?_, ?_, ?_⟩
    · exact split_ok_eq v h0 h1
    · omega
    · omega
    · omega
    · omega

/-- C9 witness: instantiations at the in-range `v = 70000`
(`[4464, 1]`) and the out-of-range `v = 4294967296`. -/
theorem C9_split_error_iff_witness :
    (∃ a b, split_32bit_to_16bit 70000 = .ok [a, b] ∧
      0 ≤ a ∧ a ≤ 65535 ∧ 0 ≤ b ∧ b ≤ 65535) ∧
    (∃ msg, split_32bit_to_16bit 4294967296 = .error msg) :=
  ⟨(C9_split_error_iff 70000).2 (by decide) (by decide),
   ((C9_split_error_iff 4294967296).1).2 (by decide)⟩

/-- C6 counterexample: with every ping attempt completing with return
code 1, the reachability probe fails, and `check_connection` returns
failure having performed zero reconnection attempts — not the bounded
reconnection retries the claim describes. -/
theorem C6_counterexample :
    ping_host (fun _ => PingOutcome.completed 1) 3 = false ∧
    check_connection (fun _ => PingOutcome.completed 1) = (false, 0) := by
  constructor <;> rfl

/-- C6 amended: `check_connection` succeeds iff one of the three ping
attempts completes with return code 0; in every case it performs zero
reconnection attempts (the reconnection-retry handler is dead code,
reachable only from exceptions `ping_host` never raises). -/
theorem C6_no_reconnection (o : ℕ → PingOutcome) :
    ((check_connection o).1 = true ↔
      o 1 = .completed 0 ∨ o 2 = .completed 0 ∨ o 3 = .completed 0) ∧
    (check_connection o).2 = 0 := by
  have hping : ping_host o 3 = true ↔
      (o 1 = .completed 0 ∨ o 2 = .completed 0 ∨ o 3 = .completed 0) := by
    unfold ping_host
    rcases h1 : o 1 with rc1 | _ | _ <;> rcases h2 : o 2 with rc2 | _ | _ <;>
      rcases h3 : o 3 with rc3 | _ | _ <;>
      simp only [pingAttempts, h1, h2, h3] <;> (try split_ifs) <;> simp_all
  unfold check_connection
  by_cases hp : ping_host o 3 = true
  · rw [if_pos hp]
    exact ⟨by simpa using hping.mp hp, rfl⟩
  · rw [if_neg hp]
    refine ⟨?_, rfl⟩
    simp only [show (false = true) = False by simp, false_iff]
    intro hor
    exact hp (hping.mpr hor)

/-- C8: the monitor/worker interleaving reaches a configuration with two
workers concurrently processing tasks of the same port: with bytes
pending, the monitor can enqueue twice for the port before any worker
reads the bytes, and two workers then dequeue the two tasks.  This
violates the at-most-one-in-flight-task-per-port invariant the spec
requires. -/
theorem C8_two_workers_same_port :
    PoolReach ⟨1, 0, 0⟩ ⟨1, 0, 2⟩ ∧ (PoolConf.mk 1 0 2).inflight = 2 := by
  refine ⟨?_, rfl⟩
  have s1 : PoolStep ⟨1, 0, 0⟩ ⟨1, 1, 0⟩ := PoolStep.monitor_poll Nat.one_pos
  have s2 : PoolStep ⟨1, 1, 0⟩ ⟨1, 2, 0⟩ := PoolStep.monitor_poll Nat.one_pos
  have s3 : PoolStep ⟨1, 2, 0⟩ ⟨1, 1, 1⟩ := PoolStep.worker_dequeue (by norm_num)
  have s4 : PoolStep ⟨1, 1, 1⟩ ⟨1, 0, 2⟩ := PoolStep.worker_dequeue Nat.one_pos
  exact .head s1 (.head s2 (.head s3 (.single s4)))

/-- C4: when no forwarding happened in the cycle, `last_update_time` is
set and at least 15 seconds have elapsed, `reset_plc_if_timeout` writes
`[0,0]` to the head device and `[0]` to the bit unit and zeroes
`last_weight` and `last_update_time`; if either reset write raises a PLC
protocol error, the state is unchanged and the global stop flag is set. -/
theorem C4_timeout_reset (st : PortState) (head bit : String) (now : ℚ)
    (wOk bOk stop : Bool) (hlut : st.last_update_time ≠ 0)
    (helapsed : 15 ≤ now - st.last_update_time) :
    (wOk = true → bOk = true →
      reset_plc_if_timeout st head bit now false wOk bOk stop =
        ({ st with last_update_time := 0, last_weight := 0 }, stop,
          [PlcOp.writeWords head [0, 0], PlcOp.writeBits bit [0]])) ∧
    (wOk = false ∨ bOk = false →
      (reset_plc_if_timeout st head bit now false wOk bOk stop).1 = st ∧
      (reset_plc_if_timeout st head bit now false wOk bOk stop).2.1 = true) := by
  unfold reset_plc_if_timeout
  rw [if_pos ⟨by simp, hlut, helapsed⟩]
  rcases wOk <;> rcases bOk <;> simp

/-- C4 witness: instantiation at `last_weight = 930`,
`last_update_time = 5`, `now = 20`, with both reset writes succeeding and
with the word write failing. -/
theorem C4_timeout_reset_witness :
    reset_plc_if_timeout ⟨930, 5⟩ "D6364" "M3300" 20 false true true false =
      (⟨0, 0⟩, false, [PlcOp.writeWords "D6364" [0, 0], PlcOp.writeBits "M3300" [0]]) ∧
    (reset_plc_if_timeout ⟨930, 5⟩ "D6364" "M3300" 20 false false true false).1 = ⟨930, 5⟩ ∧
    (reset_plc_if_timeout ⟨930, 5⟩ "D6364" "M3300" 20 false false true false).2.1 = true := by
  refine ⟨?_, ?_⟩
  · exact (C4_timeout_reset ⟨930, 5⟩ "D6364" "M3300" 20 true true false
      (by norm_num) (by norm_num)).1 rfl rfl
  · exact (C4_timeout_reset ⟨930, 5⟩ "D6364" "M3300" 20 false true false
      (by norm_num) (by norm_num)).2 (Or.inl rfl)

/-- C2 counterexample: the reading `ST,+99999999.99  g` parses to
scaled value `9999999999 ≥ 100` with `lastWeight = 0`, so the claim says
it is forwarded; but the value exceeds `0xFFFFFFFF`, and
`split_32bit_to_16bit` raises `ValueError` (caught by the enclosing
handler), so no PLC write happens at all — the trace is empty and the
call returns failure. -/
theorem C2_counterexample :
    parseWeight "ST,+99999999.99  g" = some 9999999999 ∧
    (100 : ℤ) ≤ 9999999999 ∧ (PortState.mk 0 0).last_weight = 0 ∧
    (process_weight_data "ST,+99999999.99  g" ⟨0, 0⟩ "D6364" "M3300" 1
      (fun _ => []) (fun _ => []) 3).2.2 = [] ∧
    (process_weight_data "ST,+99999999.99  g" ⟨0, 0⟩ "D6364" "M3300" 1
      (fun _ => []) (fun _ => []) 3).1 = false := by
  refine ⟨by decide, by decide, rfl, by decide, by decide⟩

theorem debounce_pass (lw s : ℤ) (hdeb : ¬(lw ≠ 0 ∧ s ≤ lw)) :
    lw = 0 ∨ lw < s := by
  rcases not_and_or.mp hdeb with hc | hc
  · exact Or.inl (not_not.mp hc)
  · exact Or.inr (by omega)

/-- C2 amended: a parsed reading with scaled value `s` is forwarded to
the PLC (a word write appears in the trace) iff `s ≥ 100`, the debounce
passes (`lastWeight = 0` or `s > lastWeight`) and additionally
`s ≤ 0xFFFFFFFF` (beyond that the 32-bit split raises `ValueError` before
any write); and whenever the call returns full success the state's
`lastWeight` becomes `s`. -/
theorem C2_forward_iff (msg : String) (st : PortState) (hd bu : String)
    (now : ℚ) (wr br : ℕ → List ℤ) (r : ℕ) (s : ℤ)
    (hparse : parseWeight msg = some s) (hr : 0 < r) :
    (containsWordWrite (process_weight_data msg st hd bu now wr br r).2.2 = true ↔
      100 ≤ s ∧ (st.last_weight = 0 ∨ st.last_weight < s) ∧ s ≤ 0xFFFFFFFF) ∧
    ((process_weight_data msg st hd bu now wr br r).1 = true →
      (process_weight_data msg st hd bu now wr br r).2.1.last_weight = s) := by
  simp only [process_weight_data, hparse]
  by_cases h100 : s < 100
  · rw [if_pos h100]
    refine ⟨?_, ?_⟩
    · simp only [containsWordWrite, List.any_nil]
      exact ⟨fun h => by simp at h, fun ⟨h, _⟩ => by omega⟩
    · intro h
      simp at h
  · rw [if_neg h100]
    by_cases hdeb : st.last_weight ≠ 0 ∧ s ≤ st.last_weight
    · rw [if_pos hdeb]
      refine ⟨?_, ?_⟩
      · simp only [containsWordWrite, List.any_nil]
        refine ⟨fun h => by simp at h, fun ⟨_, hor, _⟩ => ?_⟩
        rcases hor with h0 | hlt
        · exact absurd h0 hdeb.1
        · exact absurd hdeb.2 (by omega)
      · intro h
        simp at h
    · rw [if_neg hdeb]
      have hRHS : 100 ≤ s ∧ (st.last_weight = 0 ∨ st.last_weight < s) :=
        ⟨by omega, debounce_pass _ _ hdeb⟩
      by_cases hmax : s ≤ 0xFFFFFFFF
      · have hok := split_ok_eq s (by omega) hmax
        obtain ⟨rest, hrest⟩ := wordAttempts_write hd s wr 0 r _ hok hr
        rcases hW : wordAttempts hd s wr 0 r with ⟨o, tr⟩
        rw [hW] at hrest
        simp only at hrest
        have htr : containsWordWrite tr = true := by
          rw [hrest]
          simp [containsWordWrite]
        rcases o with _ | _ | _
        · rcases hB : bitAttempts bu br 0 r with ⟨bok, tr2⟩
          rcases bok <;> dsimp only
          · refine ⟨?_, ?_⟩
            · rw [containsWordWrite_append, htr]
              simp only [Bool.true_or, true_iff]
              exact ⟨hRHS.1, hRHS.2, hmax⟩
            · intro h
              simp at h
          · refine ⟨?_, ?_⟩
            · rw [containsWordWrite_append, htr]
              simp only [Bool.true_or, true_iff]
              exact ⟨hRHS.1, hRHS.2, hmax⟩
            · intro _
              rfl
        · refine ⟨?_, ?_⟩
          · rw [htr]
            simp only [true_iff]
            exact ⟨hRHS.1, hRHS.2, hmax⟩
          · intro h
            simp at h
        · refine ⟨?_, ?_⟩
          · rw [htr]
            simp only [true_iff]
            exact ⟨hRHS.1, hRHS.2, hmax⟩
          · intro h
            simp at h
      · have herr := split_err_of_gt s (by omega)
        obtain ⟨htr, hno⟩ := wordAttempts_of_error hd s wr 0 r _ herr
        rcases hW : wordAttempts hd s wr 0 r with ⟨o, tr⟩
        rw [hW] at htr hno
        simp only at htr hno
        rcases o with _ | _ | _
        · exact absurd rfl hno
        · subst htr
          refine ⟨?_, ?_⟩
          · simp only [containsWordWrite, List.any_nil]
            exact ⟨fun h => by simp at h, fun ⟨_, _, hle⟩ => by omega⟩
          · intro h
            simp at h
        · subst htr
          refine ⟨?_, ?_⟩
          · simp only [containsWordWrite, List.any_nil]
            exact ⟨fun h => by simp at h, fun ⟨_, _, hle⟩ => by omega⟩
          · intro h
            simp at h

/-- C2 witness: with `lastWeight = 500` the reading `4.80` (scaled 480)
produces no word write; the reading `5.01` (scaled 501) is forwarded and,
with both read-backs confirming, `lastWeight` becomes 501. -/
theorem C2_forward_iff_witness :
    containsWordWrite (process_weight_data "ST,+4.80  g" ⟨500, 0⟩ "D6364" "M3300" 1
      (fun _ => [480]) (fun _ => [1]) 3).2.2 = false ∧
    containsWordWrite (process_weight_data "ST,+5.01  g" ⟨500, 0⟩ "D6364" "M3300" 1
      (fun _ => [501]) (fun _ => [1]) 3).2.2 = true ∧
    (process_weight_data "ST,+5.01  g" ⟨500, 0⟩ "D6364" "M3300" 1
      (fun _ => [501]) (fun _ => [1]) 3).2.1.last_weight = 501 := by
  have h480 := C2_forward_iff "ST,+4.80  g" ⟨500, 0⟩ "D6364" "M3300" 1
    (fun _ => [480]) (fun _ => [1]) 3 480 (by decide) (by decide)
  have h501 := C2_forward_iff "ST,+5.01  g" ⟨500, 0⟩ "D6364" "M3300" 1
    (fun _ => [501]) (fun _ => [1]) 3 501 (by decide) (by decide)
  refine ⟨?_, h501.1.mpr (by decide), h501.2 (by decide)⟩
  cases hb : containsWordWrite (process_weight_data "ST,+4.80  g" ⟨500, 0⟩
      "D6364" "M3300" 1 (fun _ => [480]) (fun _ => [1]) 3).2.2
  · rfl
  · exact absurd (h480.1.mp hb) (by decide)

/-- C1 counterexample: the reading `ST,+655.36  g` has scaled value
`65536 ∈ [0, 2^32-1]`; the written words are `[0, 1]`, and a read-back
returning exactly the words just written (`readsize=1` yields `[0]`, the
low word) never matches, because the code compares the single low-order
word with the full integer — the verify does not succeed on the first
attempt (the call returns failure after all retries). -/
theorem C1_counterexample :
    parseWeight "ST,+655.36  g" = some 65536 ∧
    split_32bit_to_16bit 65536 = .ok [0, 1] ∧
    (process_weight_data "ST,+655.36  g" ⟨0, 0⟩ "D6364" "M3300" 1
      (fun _ => [0]) (fun _ => [1]) 3).1 = false := by
  refine ⟨by decide, by rfl, by decide⟩

/-- C1 amended: the verify step reads back a single word and compares it
with the full integer value, so with read-backs that echo exactly what
was written (low word first), `process_weight_data` succeeds — on the
first attempt, with exactly one word write and one bit write in the
trace — iff the scaled value fits in 16 bits (`v % 2^16 = v`); for
`v ≥ 2^16` the verify never matches and the call fails. -/
theorem C1_verify_low_word (msg : String) (hd bu : String) (t0 now : ℚ)
    (v : ℤ) (hparse : parseWeight msg = some v) (h100 : 100 ≤ v)
    (hmax : v ≤ 0xFFFFFFFF) :
    ((process_weight_data msg ⟨0, t0⟩ hd bu now (fun _ => [v % 2 ^ 16])
        (fun _ => [1]) 3).1 = true ↔ v % 2 ^ 16 = v) ∧
    (v % 2 ^ 16 = v →
      (process_weight_data msg ⟨0, t0⟩ hd bu now (fun _ => [v % 2 ^ 16])
        (fun _ => [1]) 3).2.2 =
      [PlcOp.writeWords hd [v % 2 ^ 16, v / 2 ^ 16 % 2 ^ 16],
        PlcOp.writeBits bu [1]]) := by
  have hok := split_ok_eq v (by omega) hmax
  simp only [process_weight_data, hparse]
  rw [if_neg (by omega)]
  rw [if_neg (by simp)]
  by_cases hv : v % 2 ^ 16 = v
  · have hhit : firstEq ((fun (_ : ℕ) => [v % 2 ^ 16]) 0) v = true := by
      simp [firstEq]
      omega
    rw [wordAttempts_first_hit hd v _ 0 3 _ hok (by omega) hhit]
    rw [bitAttempts_first_hit bu _ 0 3 (by omega) (by simp [firstEq])]
    exact ⟨iff_of_true rfl hv, fun _ => rfl⟩
  · have hmiss : ∀ j, 0 ≤ j → j < 0 + 3 →
        firstEq ((fun (_ : ℕ) => [v % 2 ^ 16]) j) v = false := by
      intro j _ _
      simp [firstEq]
      omega
    have hno := wordAttempts_not_ok hd v (fun _ => [v % 2 ^ 16]) 3 0 hmiss
    rcases hW : wordAttempts hd v (fun _ => [v % 2 ^ 16]) 0 3 with ⟨o, tr⟩
    rw [hW] at hno
    simp only at hno
    rcases o with _ | _ | _
    · exact absurd rfl hno
    · exact ⟨iff_of_false (by simp) hv, fun h => absurd h hv⟩
    · exact ⟨iff_of_false (by simp) hv, fun h => absurd h hv⟩

/-- C1 witness: instantiation at the reading `6.55` (scaled value 655,
within 16 bits): the forward succeeds with a single word write `[655, 0]`
followed by the bit write. -/
theorem C1_verify_low_word_witness :
    (process_weight_data "ST,+6.55  g" ⟨0, 0⟩ "D6364" "M3300" 1
      (fun _ => [(655 : ℤ) % 2 ^ 16]) (fun _ => [1]) 3).1 = true ∧
    (process_weight_data "ST,+6.55  g" ⟨0, 0⟩ "D6364" "M3300" 1
      (fun _ => [(655 : ℤ) % 2 ^ 16]) (fun _ => [1]) 3).2.2 =
      [PlcOp.writeWords "D6364" [(655 : ℤ) % 2 ^ 16, (655 : ℤ) / 2 ^ 16 % 2 ^ 16],
        PlcOp.writeBits "M3300" [1]] := by
  have h := C1_verify_low_word "ST,+6.55  g" "D6364" "M3300" 0 1 655
    (by decide) (by decide) (by decide)
  exact ⟨h.1.mpr (by decide), h.2 (by decide)⟩

/-- C5: for every valid reading (grammar match with scaled value
`s ≥ 100`; `s < 2^1024` keeps clear of the float-overflow fringe where
`int()` would raise and no scaled value exists), `last_update_time` is
set to the current time whether or not the reading is forwarded; whenever
the call returns failure, `last_weight` is unchanged; a debounce
rejection returns failure; and if the word read-back, or the bit
read-back, never matches within the retry budget, the call returns
failure. -/
theorem C5_valid_reading_state (msg : String) (st : PortState)
    (hd bu : String) (now : ℚ) (wr br : ℕ → List ℤ) (r : ℕ) (s : ℤ)
    (hparse : parseWeight msg = some s) (h100 : 100 ≤ s)
    (hfin : s < 2 ^ 1024) :
    ((process_weight_data msg st hd bu now wr br r).2.1.last_update_time = now) ∧
    ((process_weight_data msg st hd bu now wr br r).1 = false →
      (process_weight_data msg st hd bu now wr br r).2.1.last_weight =
        st.last_weight) ∧
    (st.last_weight ≠ 0 → s ≤ st.last_weight →
      (process_weight_data msg st hd bu now wr br r).1 = false) ∧
    ((∀ j, j < r → firstEq (wr j) s = false) →
      (process_weight_data msg st hd bu now wr br r).1 = false) ∧
    ((∀ j, j < r → firstEq (br j) 1 = false) →
      (process_weight_data msg st hd bu now wr br r).1 = false) := by
  simp only [process_weight_data, hparse]
  rw [if_neg (by omega)]
  by_cases hdeb : st.last_weight ≠ 0 ∧ s ≤ st.last_weight
  · rw [if_pos hdeb]
    exact ⟨rfl, fun _ => rfl, fun _ _ => rfl, fun _ => rfl, fun _ => rfl⟩
  · rw [if_neg hdeb]
    rcases hW : wordAttempts hd s wr 0 r with ⟨o, tr⟩
    have hdebf : ∀ P : Prop, st.last_weight ≠ 0 → s ≤ st.last_weight → P :=
      fun P h1 h2 => absurd ⟨h1, h2⟩ hdeb
    rcases o with _ | _ | _
    · rcases hB : bitAttempts bu br 0 r with ⟨bok, tr2⟩
      have hok : (wordAttempts hd s wr 0 r).1 = .ok := by
        rw [hW]
      have hbit : (bitAttempts bu br 0 r).1 = bok := by
        rw [hB]
      rcases bok <;> dsimp only
      · exact ⟨rfl, fun _ => rfl, fun h1 h2 => hdebf _ h1 h2, fun _ => rfl,
          fun _ => rfl⟩
      · refine ⟨rfl, fun h => by simp at h, fun h1 h2 => hdebf _ h1 h2, ?_, ?_⟩
        · intro hmiss
          have := wordAttempts_not_ok hd s wr r 0 (fun j _ hj => hmiss j (by omega))
          exact absurd hok this
        · intro hmiss
          have := bitAttempts_not_ok bu br r 0 (fun j _ hj => hmiss j (by omega))
          rw [hbit] at this
          simp at this
    · exact ⟨rfl, fun _ => rfl, fun h1 h2 => hdebf _ h1 h2, fun _ => rfl,
        fun _ => rfl⟩
    · exact ⟨rfl, fun _ => rfl, fun h1 h2 => hdebf _ h1 h2, fun _ => rfl,
        fun _ => rfl⟩

/-- C5 witness: the reading `9.3` (scaled 930) on a fresh port.  With
word read-backs that never match, `last_update_time` becomes `now = 7`,
the call fails after the retries, and `last_weight` stays `0`; with the
word read-back confirming but the bit read-back never matching, the call
also fails and `last_weight` again stays `0`. -/
theorem C5_valid_reading_state_witness :
    (process_weight_data "ST,+000009.3  g" ⟨0, 0⟩ "D6364" "M3300" 7
      (fun _ => []) (fun _ => []) 3).2.1.last_update_time = 7 ∧
    (process_weight_data "ST,+000009.3  g" ⟨0, 0⟩ "D6364" "M3300" 7
      (fun _ => []) (fun _ => []) 3).1 = false ∧
    (process_weight_data "ST,+000009.3  g" ⟨0, 0⟩ "D6364" "M3300" 7
      (fun _ => []) (fun _ => []) 3).2.1.last_weight = 0 ∧
    (process_weight_data "ST,+000009.3  g" ⟨0, 0⟩ "D6364" "M3300" 7
      (fun _ => [930]) (fun _ => []) 3).1 = false ∧
    (process_weight_data "ST,+000009.3  g" ⟨0, 0⟩ "D6364" "M3300" 7
      (fun _ => [930]) (fun _ => []) 3).2.1.last_weight = 0 := by
  have h := C5_valid_reading_state "ST,+000009.3  g" ⟨0, 0⟩ "D6364" "M3300" 7
    (fun _ => []) (fun _ => []) 3 930 (by decide) (by decide) (by norm_num)
  have hb := C5_valid_reading_state "ST,+000009.3  g" ⟨0, 0⟩ "D6364" "M3300" 7
    (fun _ => [930]) (fun _ => []) 3 930 (by decide) (by decide) (by norm_num)
  have hfail := h.2.2.2.1 (fun j _ => rfl)
  have hbfail := hb.2.2.2.2 (fun j _ => rfl)
  exact ⟨h.1, hfail, h.2.1 hfail, hbfail, hb.2.1 hbfail⟩

/-! Helper lemmas on character-list trimming and splitting, used for the
configuration-parsing claim. -/

theorem dropWhile_append_cons {α : Type} (P : α → Bool) (xs : List α) (c : α)
    (r : List α) (hc : P c = false) :
    (xs ++ c :: r).dropWhile P = xs.dropWhile P ++ c :: r := by
  induction xs with
  | nil => simp [List.dropWhile_cons, hc]
  | cons a t ih =>
    by_cases ha : P a = true
    · simpa [List.dropWhile_cons, ha] using ih
    · simp [List.dropWhile_cons, Bool.eq_false_iff.mpr ha]

theorem dropWhile_all_nil {α : Type} (P : α → Bool) (xs : List α)
    (h : ∀ a ∈ xs, P a = true) : xs.dropWhile P = [] := by
  induction xs with
  | nil => rfl
  | cons a t ih =>
    rw [List.dropWhile_cons_of_pos (h a (by simp))]
    exact ih fun x hx => h x (by simp [hx])

theorem dropWhile_idem {α : Type} (P : α → Bool) (xs : List α) :
    (xs.dropWhile P).dropWhile P = xs.dropWhile P := by
  induction xs with
  | nil => rfl
  | cons a t ih =>
    by_cases ha : P a = true
    · simpa [List.dropWhile_cons, ha] using ih
    · simp [List.dropWhile_cons, Bool.eq_false_iff.mpr ha]

theorem dropWhile_head_false {α : Type} (P : α → Bool) (xs : List α) (c : α)
    (t : List α) (h : xs.dropWhile P = c :: t) : P c = false := by
  induction xs with
  | nil => simp at h
  | cons a s ih =>
    by_cases ha : P a = true
    · rw [List.dropWhile_cons_of_pos ha] at h
      exact ih h
    · rw [List.dropWhile_cons_of_neg ha] at h
      cases h
      exact Bool.eq_false_iff.mpr ha

theorem mem_of_mem_dropWhile {α : Type} (P : α → Bool) (xs : List α) (a : α)
    (h : a ∈ xs.dropWhile P) : a ∈ xs :=
  (List.dropWhile_sublist P).mem h

theorem breakAtColon_append (xs r : List Char) (hxs : ':' ∉ xs) :
    breakAtColon (xs ++ ':' :: r) = some (xs, r) := by
  induction xs with
  | nil => simp [breakAtColon]
  | cons c t ih =>
    have hc : ¬c = ':' := fun h => hxs (by simp [h])
    simp only [List.cons_append, breakAtColon, if_neg hc, List.append_eq]
    rw [ih fun h => hxs (by simp [h])]

theorem splitOnChar_no_sep (sep : Char) (xs : List Char) (h : sep ∉ xs) :
    splitOnChar sep xs = [xs] := by
  induction xs with
  | nil => rfl
  | cons c t ih =>
    have hc : ¬c = sep := fun hh => h (by simp [hh])
    simp only [splitOnChar, if_neg hc]
    rw [ih fun hh => h (by simp [hh])]

theorem splitOnChar_append (sep : Char) (xs ys : List Char) (h : sep ∉ xs) :
    splitOnChar sep (xs ++ sep :: ys) = xs :: splitOnChar sep ys := by
  induction xs with
  | nil => simp [splitOnChar]
  | cons c t ih =>
    have hc : ¬c = sep := fun hh => h (by simp [hh])
    simp only [List.cons_append, splitOnChar, if_neg hc, List.append_eq]
    rw [ih fun hh => h (by simp [hh])]

theorem foldl_configStep_skip (e : String) (he : parseEntry e = none) :
    ∀ (xs ys : List String) (acc : List (String × String × String)),
      (xs ++ e :: ys).foldl configStep acc = (xs ++ ys).foldl configStep acc := by
  intro xs
  induction xs with
  | nil =>
    intro ys acc
    simp [List.foldl_cons, configStep, he]
  | cons a t ih =>
    intro ys acc
    simp only [List.cons_append, List.foldl_cons]
    exact ih ys (configStep acc a)

theorem stripL_append_cons (xs : List Char) (c : Char) (r : List Char)
    (hc : pyIsSpace c = false) : stripL (xs ++ c :: r) = stripL xs ++ c :: r :=
  dropWhile_append_cons pyIsSpace xs c r hc

theorem stripR_append_cons (xs : List Char) (c : Char) (r : List Char)
    (hc : pyIsSpace c = false) : stripR (xs ++ c :: r) = xs ++ c :: stripR r := by
  unfold stripR
  have h1 : (xs ++ c :: r).reverse = r.reverse ++ c :: xs.reverse := by
    rw [List.reverse_append, List.reverse_cons, List.append_assoc]
    rfl
  rw [h1, dropWhile_append_cons pyIsSpace _ c _ hc, List.reverse_append,
    List.reverse_cons, List.reverse_reverse, List.append_assoc]
  rfl

theorem stripR_append_spaces (xs sfx : List Char)
    (h : ∀ a ∈ sfx, pyIsSpace a = true) : stripR (xs ++ sfx) = stripR xs := by
  unfold stripR
  rw [List.reverse_append, List.dropWhile_append,
    dropWhile_all_nil pyIsSpace sfx.reverse
      (fun a ha => h a (List.mem_reverse.mp ha))]
  simp

theorem stripR_decomp (l : List Char) :
    ∃ sfx, l = stripR l ++ sfx ∧ ∀ a ∈ sfx, pyIsSpace a = true := by
  refine ⟨(l.reverse.takeWhile pyIsSpace).reverse, ?_, ?_⟩
  · conv_lhs => rw [← l.reverse_reverse,
      ← List.takeWhile_append_dropWhile pyIsSpace l.reverse]
    rw [List.reverse_append]
    rfl
  · intro a ha
    exact List.mem_takeWhile_imp (List.mem_reverse.mp ha)

theorem strip_of_stripR (l : List Char) :
    stripR (stripL (stripR l)) = stripR (stripL l) := by
  obtain ⟨sfx, hl, hsfx⟩ := stripR_decomp l
  by_cases hm : stripL (stripR l) = []
  · have hll : stripL l = [] := by
      conv_lhs => rw [hl]
      unfold stripL at hm ⊢
      rw [List.dropWhile_append, hm]
      simp [dropWhile_all_nil pyIsSpace sfx hsfx]
    rw [hm, hll]
  · have hll : stripL l = stripL (stripR l) ++ sfx := by
      conv_lhs => rw [hl]
      unfold stripL at hm ⊢
      rw [List.dropWhile_append]
      simp [List.isEmpty_iff, hm]
    rw [hll, stripR_append_spaces _ sfx hsfx]

theorem mem_of_mem_stripR (l : List Char) (a : Char) (h : a ∈ stripR l) :
    a ∈ l := by
  unfold stripR at h
  rw [List.mem_reverse] at h
  exact List.mem_reverse.mp (mem_of_mem_dropWhile pyIsSpace l.reverse a h)

theorem dictFind_insert (m : List (String × String × String)) (k : String)
    (v1 v2 : String) : dictFind (dictInsert m (k, v1, v2)) k = some (v1, v2) := by
  induction m with
  | nil => simp [dictInsert, dictFind]
  | cons a t ih =>
    rcases a with ⟨k1, w⟩
    by_cases hk : k1 = k
    · simp [dictInsert, hk, dictFind]
    · simp only [dictInsert, dictFind, if_neg hk]
      exact ih

theorem takeWhile_append_cons {α : Type} (P : α → Bool) (xs : List α) (c : α)
    (r : List α) (hall : ∀ a ∈ xs, P a = true) (hc : P c = false) :
    (xs ++ c :: r).takeWhile P = xs := by
  induction xs with
  | nil => simp [List.takeWhile_cons, hc]
  | cons a t ih =>
    rw [List.cons_append, List.takeWhile_cons_of_pos (hall a (by simp))]
    rw [ih fun x hx => hall x (by simp [hx])]

theorem space_not_digit (c : Char) (h : pyIsSpace c = true) :
    pyIsDigit c = false := by
  unfold pyIsSpace at h
  simp only [Bool.decide_or, Bool.or_eq_true, decide_eq_true_eq] at h
  rcases h with h | h | h | h | h | h <;> subst h <;> decide

theorem parseEntry_wellformed (p h b : String)
    (hp : ':' ∉ p.toList) (hh : ',' ∉ h.toList) (hb : ',' ∉ b.toList) :
    parseEntry (p ++ ":" ++ h ++ "," ++ b) =
      some (pyStrip p, pyLstripSlash h, pyStrip b) := by
  have hlist : (p ++ ":" ++ h ++ "," ++ b).toList =
      p.toList ++ ':' :: (h.toList ++ ',' :: b.toList) := by
    show p.toList ++ [':'] ++ h.toList ++ [','] ++ b.toList = _
    simp
  have hes : (pyStrip (p ++ ":" ++ h ++ "," ++ b)).toList =
      stripL p.toList ++ ':' :: (h.toList ++ ',' :: stripR b.toList) := by
    show stripR (stripL (p ++ ":" ++ h ++ "," ++ b).toList) = _
    rw [hlist, stripL_append_cons _ _ _ (by decide),
      stripR_append_cons _ _ _ (by decide), stripR_append_cons _ _ _ (by decide)]
  unfold parseEntry
  rw [if_neg (by
    intro he
    rw [he] at hes
    simp at hes)]
  rw [hes]
  rw [breakAtColon_append (stripL p.toList) _
    (fun hc => hp (mem_of_mem_dropWhile pyIsSpace p.toList ':' hc))]
  dsimp only
  rw [splitOnChar_append ',' _ _ hh,
    splitOnChar_no_sep ',' _ (fun hc => hb (mem_of_mem_stripR _ _ hc))]
  show some (pyStrip ⟨stripL p.toList⟩, pyLstripSlash ⟨h.toList⟩,
    pyStrip ⟨stripR b.toList⟩) = _
  have e1 : pyStrip ⟨stripL p.toList⟩ = pyStrip p := by
    show String.mk (stripR (stripL (stripL p.toList))) = _
    unfold stripL
    rw [dropWhile_idem]
    rfl
  have e2 : pyLstripSlash ⟨h.toList⟩ = pyLstripSlash h := rfl
  have e3 : pyStrip ⟨stripR b.toList⟩ = pyStrip b := by
    show String.mk (stripR (stripL (stripR b.toList))) = _
    rw [strip_of_stripR]
    rfl
  rw [e1, e2, e3]

/-- C10: every well-formed configuration entry `port:headDevice,bitUnit`
(no colon in the port part, no comma in either device part) is parsed to
the pair of head device with leading `/` characters removed and bit unit
with surrounding whitespace stripped, keyed by the stripped port name,
and the mapping takes that key to that pair; a malformed or empty entry
is skipped without raising and without affecting the other entries of the
configuration string. -/
theorem C10_config_entries (p h b : String) (e : String)
    (hp : ':' ∉ p.toList) (hh : ',' ∉ h.toList) (hb : ',' ∉ b.toList)
    (he : parseEntry e = none) :
    parseEntry (p ++ ":" ++ h ++ "," ++ b) =
      some (pyStrip p, pyLstripSlash h, pyStrip b) ∧
    (∀ m, dictFind (dictInsert m (pyStrip p, pyLstripSlash h, pyStrip b))
      (pyStrip p) = some (pyLstripSlash h, pyStrip b)) ∧
    (∀ xs ys : List String,
      parseConfigList (xs ++ e :: ys) = parseConfigList (xs ++ ys)) := by
  refine ⟨parseEntry_wellformed p h b hp hh hb, ?_, ?_⟩
  · intro m
    exact dictFind_insert m (pyStrip p) (pyLstripSlash h) (pyStrip b)
  · intro xs ys
    exact foldl_configStep_skip e he xs ys []

/-- C10 witness: instantiation at the entry
`" /dev/ttyUSB0 : //D6364 , M3300 "` and the malformed entry `"garbage"`
inside a two-entry configuration string. -/
theorem C10_config_entries_witness :
    parseEntry " /dev/ttyUSB0 : //D6364 , M3300 " =
      some ("/dev/ttyUSB0", " //D6364 ", "M3300") ∧
    parseConfigList ["a:b,c", "garbage", "d:e,f"] =
      parseConfigList ["a:b,c", "d:e,f"] := by
  have h := C10_config_entries " /dev/ttyUSB0 " " //D6364 " " M3300 " "garbage"
    (by decide) (by decide) (by decide) (by decide)
  constructor
  · have h1 := h.1
    rw [show (" /dev/ttyUSB0 " ++ ":" ++ " //D6364 " ++ "," ++ " M3300 " : String) =
      " /dev/ttyUSB0 : //D6364 , M3300 " from rfl] at h1
    rw [h1]
    decide
  · exact h.2.2 ["a:b,c"] ["d:e,f"]

/-- C3 counterexample: the well-formed frame `ST,+2.30  g` yields
scaled value `229`, while `round(2.30 * 100) = 230` — the parser
truncates the binary64 product (`int(float("2.30") * 100)`), and the
double nearest to `2.30` is slightly below it, so the product falls just
under `230`. -/
theorem C3_counterexample :
    parseWeight "ST,+2.30  g" = some 229 ∧
    round ((230 : ℚ) / 100 * 100) = (230 : ℤ) ∧ (229 : ℤ) ≠ 230 := by
  refine ⟨by decide, by norm_num, by decide⟩

/-- C3 amended: for every well-formed frame
`ST,+<digits>.<digits><spaces>g` whose decimal value is below `2^1015`
(so both `float(D.DD)` and the product with `100` stay finite in
binary64; beyond the overflow threshold CPython's `int(inf)` raises an
uncaught `OverflowError` and no scaled value exists), the parser produces
`scaledValue = int(float(D.DD) * 100)` — the decimal rounded to the
nearest binary64, multiplied by 100 in binary64, truncated — which is
what `pyScale` computes; this equals `round(D.DD * 100)` for the claim's
examples `8.1 → 810` and `9.3 → 930` but not universally
(`2.30 → 229`). -/
theorem C3_parser_scale (d1 d2 ws : List Char)
    (hd1 : d1 ≠ []) (hd2 : d2 ≠ []) (hws : ws ≠ [])
    (h1 : ∀ c ∈ d1, pyIsDigit c = true) (h2 : ∀ c ∈ d2, pyIsDigit c = true)
    (h3 : ∀ c ∈ ws, pyIsSpace c = true)
    (_hfin : decVal d1 d2 < 2 ^ 1015) :
    parseWeight ⟨'S' :: 'T' :: ',' :: '+' :: (d1 ++ '.' :: (d2 ++ (ws ++ ['g'])))⟩ =
      some (pyScale d1 d2) := by
  rcases ws with _ | ⟨w0, ws'⟩
  · exact absurd rfl hws
  have hw0 : pyIsSpace w0 = true := h3 w0 (by simp)
  have hws' : ∀ a ∈ w0 :: ws', pyIsSpace a = true := h3
  -- the stripped message is the message itself
  have hstripL : stripL ('S' :: 'T' :: ',' :: '+' ::
      (d1 ++ '.' :: (d2 ++ ((w0 :: ws') ++ ['g'])))) =
      'S' :: 'T' :: ',' :: '+' :: (d1 ++ '.' :: (d2 ++ ((w0 :: ws') ++ ['g']))) := by
    unfold stripL
    rw [List.dropWhile_cons_of_neg (by decide)]
  have hshape : 'S' :: 'T' :: ',' :: '+' ::
      (d1 ++ '.' :: (d2 ++ ((w0 :: ws') ++ ['g']))) =
      ('S' :: 'T' :: ',' :: '+' :: (d1 ++ '.' :: (d2 ++ (w0 :: ws')))) ++
        'g' :: [] := by
    simp
  have hstripR : stripR ('S' :: 'T' :: ',' :: '+' ::
      (d1 ++ '.' :: (d2 ++ ((w0 :: ws') ++ ['g'])))) =
      'S' :: 'T' :: ',' :: '+' :: (d1 ++ '.' :: (d2 ++ ((w0 :: ws') ++ ['g']))) := by
    conv_lhs => rw [hshape]
    rw [stripR_append_cons _ _ _ (by decide)]
    rw [hshape]
    rfl
  have hstrip : pyStrip ⟨'S' :: 'T' :: ',' :: '+' ::
      (d1 ++ '.' :: (d2 ++ ((w0 :: ws') ++ ['g'])))⟩ =
      ⟨'S' :: 'T' :: ',' :: '+' :: (d1 ++ '.' :: (d2 ++ ((w0 :: ws') ++ ['g'])))⟩ := by
    show String.mk (stripR (stripL ('S' :: 'T' :: ',' :: '+' ::
      (d1 ++ '.' :: (d2 ++ ((w0 :: ws') ++ ['g'])))))) =
      String.mk ('S' :: 'T' :: ',' :: '+' :: (d1 ++ '.' :: (d2 ++ ((w0 :: ws') ++ ['g']))))
    rw [hstripL, hstripR]
  simp only [parseWeight, hstrip]
  rw [if_neg (fun hx => by
    have hdata := congrArg String.data hx
    simp at hdata)]
  have hmatch : matchWeight ('S' :: 'T' :: ',' :: '+' ::
      (d1 ++ '.' :: (d2 ++ ((w0 :: ws') ++ ['g'])))) = some (d1, d2) := by
    simp only [matchWeight]
    rw [takeWhile_append_cons pyIsDigit d1 '.' _ h1 (by decide)]
    rw [dropWhile_append_cons pyIsDigit d1 '.' _ (by decide),
      dropWhile_all_nil pyIsDigit d1 h1]
    simp only [List.nil_append]
    have hr2 : d2 ++ ((w0 :: ws') ++ ['g']) = d2 ++ w0 :: (ws' ++ ['g']) := by
      simp
    rw [hr2]
    rw [takeWhile_append_cons pyIsDigit d2 w0 _ h2 (space_not_digit w0 hw0)]
    rw [dropWhile_append_cons pyIsDigit d2 w0 _ (space_not_digit w0 hw0),
      dropWhile_all_nil pyIsDigit d2 h2]
    simp only [List.nil_append]
    have hr3 : w0 :: (ws' ++ ['g']) = (w0 :: ws') ++ 'g' :: [] := by simp
    rw [hr3]
    rw [takeWhile_append_cons pyIsSpace (w0 :: ws') 'g' _ hws' (by decide)]
    rw [dropWhile_append_cons pyIsSpace (w0 :: ws') 'g' _ (by decide),
      dropWhile_all_nil pyIsSpace (w0 :: ws') hws']
    rw [if_neg (by simp [hd1, hd2])]
    rfl
  have hmatch2 : matchWeight (String.mk ('S' :: 'T' :: ',' :: '+' ::
      (d1 ++ '.' :: (d2 ++ ((w0 :: ws') ++ ['g']))))).toList = some (d1, d2) := hmatch
  rw [hmatch2]

/-- C3 witness: instantiations at the frames for `8.1` and `9.3` grams,
yielding scaled values `810` and `930`. -/
theorem C3_parser_scale_witness :
    parseWeight "ST,+8.1  g" = some 810 ∧
    parseWeight "ST,+9.3  g" = some 930 := by
  have h81 := C3_parser_scale ['8'] ['1'] [' ', ' ']
    (by decide) (by decide) (by decide) (by decide) (by decide) (by decide)
    (by
      have e8 : '8'.toNat - '0'.toNat = 8 := by decide
      have e1 : '1'.toNat - '0'.toNat = 1 := by decide
      norm_num [decVal, natOfDigits, e8, e1])
  have h93 := C3_parser_scale ['9'] ['3'] [' ', ' ']
    (by decide) (by decide) (by decide) (by decide) (by decide) (by decide)
    (by
      have e9 : '9'.toNat - '0'.toNat = 9 := by decide
      have e3 : '3'.toNat - '0'.toNat = 3 := by decide
      norm_num [decVal, natOfDigits, e9, e3])
  constructor
  · rw [show ("ST,+8.1  g" : String) =
      ⟨'S' :: 'T' :: ',' :: '+' :: (['8'] ++ '.' :: (['1'] ++ ([' ', ' '] ++ ['g'])))⟩
      from rfl, h81]
    decide
  · rw [show ("ST,+9.3  g" : String) =
      ⟨'S' :: 'T' :: ',' :: '+' :: (['9'] ++ '.' :: (['3'] ++ ([' ', ' '] ++ ['g'])))⟩
      from rfl, h93]
    decide

end MCScale











